import Mathlib

/-!
Verification of the 2×2 Hill cipher engine of `src/app.py`.

Modelling conventions:
* Python strings are `List ℕ` of Unicode code points (`ord`-values);
  `'A'` is 65, `'Z'` is 90, `'a'` is 97, `'z'` is 122, `'X'` is 88.
* Python integers are `ℤ`; Python's `%` with a positive modulus agrees
  with Lean's `Int.emod` (both return a result in `[0, modulus)`).
* Python exceptions are modelled with `Except CipherError`:
  the `ValueError` of `find_inverse` becomes `CipherError.invalidKey`
  (carrying the reduced determinant that the message interpolates),
  a dict `KeyError` becomes `CipherError.keyError`, a list `IndexError`
  becomes `CipherError.indexError`, and the UI-level "no alphabetic
  characters" error becomes `CipherError.emptyInput`.
-/

namespace HillCipher

/-- Errors raised by the engine (see the modelling conventions above). -/
inductive CipherError where
  | invalidKey (det : ℤ)
  | keyError (ch : ℕ)
  | indexError
  | emptyInput
deriving DecidableEq, Repr

/-- A 2×2 integer matrix; `a b c d` are `K[0][0] K[0][1] K[1][0] K[1][1]`. -/
structure M2 where
  a : ℤ
  b : ℤ
  c : ℤ
  d : ℤ
deriving DecidableEq, Repr

/-- `alphabet = "ABCDEFGHIJKLMNOPQRSTUVWXYZ"` as code points 65..90. -/
def alphabet : List ℕ :=
  [65, 66, 67, 68, 69, 70, 71, 72, 73, 74, 75, 76, 77, 78, 79, 80,
   81, 82, 83, 84, 85, 86, 87, 88, 89, 90]

/-- `modulus = 26`. -/
def modulus : ℕ := 26

/-- `letter_to_num = {alphabet[i]: i for i in range(modulus)}`; a lookup
that misses models a `KeyError`. -/
def letter_to_num (ch : ℕ) : Option ℕ :=
  alphabet.indexOf? ch

/-- `num_to_letter = {i: alphabet[i] for i in range(modulus)}`; callers
only look up keys `n % 26 < 26`, so the default branch is unreachable. -/
def num_to_letter (i : ℕ) : ℕ :=
  alphabet.getD i 65

/-- The precomputed `mod_inverse` table of inverses mod 26. -/
def mod_inverse : List (ℤ × ℤ) :=
  [(1, 1), (3, 9), (5, 21), (7, 15), (9, 3), (11, 19),
   (15, 7), (17, 23), (19, 11), (21, 5), (23, 17), (25, 25)]

/-- `find_inverse(a)`: reduce mod 26, look up in `mod_inverse`, and
raise `ValueError` (carrying the reduced determinant) on a miss. -/
def find_inverse (x : ℤ) : Except CipherError ℤ :=
  let x := x % (modulus : ℤ)
  match mod_inverse.lookup x with
  | some v => Except.ok v
  | none => Except.error (CipherError.invalidKey x)

/-- `inverse_matrix_mod26(K)`: determinant, table inverse, adjugate
`[[d,-b],[-c,a]]` scaled by the inverse determinant, each entry mod 26. -/
def inverse_matrix_mod26 (K : M2) : Except CipherError M2 := do
  let det := (K.a * K.d - K.b * K.c) % (modulus : ℤ)
  let inv_det ← find_inverse det
  Except.ok ⟨(inv_det * K.d) % (modulus : ℤ), (inv_det * (-K.b)) % (modulus : ℤ),
             (inv_det * (-K.c)) % (modulus : ℤ), (inv_det * K.a) % (modulus : ℤ)⟩

/-- The character class `[A-Za-z]` of the regex in `clean_text_keep_alpha`. -/
def isAsciiLetter (ch : ℕ) : Bool :=
  (65 ≤ ch && ch ≤ 90) || (97 ≤ ch && ch ≤ 122)

/-- Per-character effect of `str.upper()` on the ASCII-only residue left
by the regex substitution. -/
def upperChar (ch : ℕ) : ℕ :=
  if 97 ≤ ch ∧ ch ≤ 122 then ch - 32 else ch

/-- `clean_text_keep_alpha`: drop everything outside `[A-Za-z]`, uppercase. -/
def clean_text_keep_alpha (text : List ℕ) : List ℕ :=
  (text.filter isAsciiLetter).map upperChar

/-- `pad_text`: append `'X'` (code point 88) when the length is odd. -/
def pad_text (text : List ℕ) : List ℕ :=
  if text.length % 2 ≠ 0 then text ++ [88] else text

/-- `text_to_numbers`: dict lookups that raise `KeyError` on a miss
(the list comprehension written as direct recursion). -/
def text_to_numbers : List ℕ → Except CipherError (List ℕ)
  | [] => Except.ok []
  | ch :: rest => do
      let v ← match letter_to_num ch with
              | some v => Except.ok v
              | none => Except.error (CipherError.keyError ch)
      let vs ← text_to_numbers rest
      Except.ok (v :: vs)

/-- `numbers_to_text`: each number reduced mod 26 then mapped to a letter. -/
def numbers_to_text (nums : List ℤ) : List ℕ :=
  nums.map fun n => num_to_letter (n % (modulus : ℤ)).toNat

/-- Python list indexing `p[i]`, raising `IndexError` out of range. -/
def getIdx (l : List ℕ) (i : ℕ) : Except CipherError ℕ :=
  match l.get? i with
  | some v => Except.ok v
  | none => Except.error CipherError.indexError

/-- `encrypt_block(block, K)`: returns `(cipher letters, cipher numbers,
plain numbers)` exactly as the Python triple. -/
def encrypt_block (block : List ℕ) (K : M2) :
    Except CipherError (List ℕ × List ℤ × List ℕ) := do
  let p ← text_to_numbers block
  let p0 ← getIdx p 0
  let p1 ← getIdx p 1
  let c1 := (K.a * (p0 : ℤ) + K.b * (p1 : ℤ)) % (modulus : ℤ)
  let c2 := (K.c * (p0 : ℤ) + K.d * (p1 : ℤ)) % (modulus : ℤ)
  Except.ok (numbers_to_text [c1, c2], [c1, c2], [p0, p1])

/-- `decrypt_block(block, K_inv)`: same arithmetic with the inverse key. -/
def decrypt_block (block : List ℕ) (K_inv : M2) :
    Except CipherError (List ℕ × List ℤ × List ℕ) := do
  let c ← text_to_numbers block
  let c0 ← getIdx c 0
  let c1 ← getIdx c 1
  let p1 := (K_inv.a * (c0 : ℤ) + K_inv.b * (c1 : ℤ)) % (modulus : ℤ)
  let p2 := (K_inv.c * (c0 : ℤ) + K_inv.d * (c1 : ℤ)) % (modulus : ℤ)
  Except.ok (numbers_to_text [p1, p2], [p1, p2], [c0, c1])

/-- A row of the `blocks` diagnostic list built by `encrypt_full`:
`(plain_block, plain_nums, cipher_nums, cipher_block)`. -/
abbrev EncBlock := List ℕ × List ℕ × List ℤ × List ℕ

/-- A row of the `blocks` diagnostic list built by `decrypt_full`:
`(cipher_block, cipher_nums, plain_nums, plain_block)`. -/
abbrev DecBlock := List ℕ × List ℕ × List ℤ × List ℕ

/-- The `for i in range(0, len(padded), 2)` loop of `encrypt_full`:
each slice `padded[i:i+2]` is encrypted and appended. A final slice of
length 1 (impossible after padding) is still fed to `encrypt_block`. -/
def encrypt_chunks (K : M2) : List ℕ → Except CipherError (List ℕ × List EncBlock)
  | [] => Except.ok ([], [])
  | [c0] => do
      let (ctext, cnums, pnums) ← encrypt_block [c0] K
      Except.ok (ctext, [([c0], pnums, cnums, ctext)])
  | c0 :: c1 :: rest => do
      let (ctext, cnums, pnums) ← encrypt_block [c0, c1] K
      let (ct, bs) ← encrypt_chunks K rest
      Except.ok (ctext ++ ct, ([c0, c1], pnums, cnums, ctext) :: bs)

/-- The decryption loop of `decrypt_full`, symmetric to `encrypt_chunks`. -/
def decrypt_chunks (K_inv : M2) : List ℕ → Except CipherError (List ℕ × List DecBlock)
  | [] => Except.ok ([], [])
  | [c0] => do
      let (ptext, pnums, cnums) ← decrypt_block [c0] K_inv
      Except.ok (ptext, [([c0], cnums, pnums, ptext)])
  | c0 :: c1 :: rest => do
      let (ptext, pnums, cnums) ← decrypt_block [c0, c1] K_inv
      let (pt, bs) ← decrypt_chunks K_inv rest
      Except.ok (ptext ++ pt, ([c0, c1], cnums, pnums, ptext) :: bs)

/-- `encrypt_full(plaintext, K) = (cleaned, padded, ciphertext, blocks)`. -/
def encrypt_full (plaintext : List ℕ) (K : M2) :
    Except CipherError (List ℕ × List ℕ × List ℕ × List EncBlock) := do
  let cleaned := clean_text_keep_alpha plaintext
  let padded := pad_text cleaned
  let (ciphertext, blocks) ← encrypt_chunks K padded
  Except.ok (cleaned, padded, ciphertext, blocks)

/-- `decrypt_full(ciphertext, K_inv) = (cleaned, plaintext, blocks)`;
an odd-length cleaned ciphertext loses its last character (`cleaned[:-1]`). -/
def decrypt_full (ciphertext : List ℕ) (K_inv : M2) :
    Except CipherError (List ℕ × List ℕ × List DecBlock) := do
  let cleaned0 := clean_text_keep_alpha ciphertext
  let cleaned := if cleaned0.length % 2 ≠ 0 then cleaned0.dropLast else cleaned0
  let (plaintext, blocks) ← decrypt_chunks K_inv cleaned
  Except.ok (cleaned, plaintext, blocks)

/-- The encrypt form handler of the UI (app.py lines 186-209): run
`encrypt_full`, then report "No alphabetic characters found" when the
cleaned text is empty instead of showing a result. -/
def encrypt_op (plaintext : List ℕ) (K : M2) :
    Except CipherError (List ℕ × List ℕ × List ℕ × List EncBlock) := do
  let r ← encrypt_full plaintext K
  if r.1 = [] then Except.error CipherError.emptyInput else Except.ok r

/-- The decrypt form handler of the UI (app.py lines 216-234): run
`decrypt_full`, then report "No alphabetic characters found" when the
cleaned ciphertext is empty instead of showing a result. -/
def decrypt_op (ciphertext : List ℕ) (K_inv : M2) :
    Except CipherError (List ℕ × List ℕ × List DecBlock) := do
  let r ← decrypt_full ciphertext K_inv
  if r.1 = [] then Except.error CipherError.emptyInput else Except.ok r

/-- `generate_random_key`: the random source is an explicit stream
`rand : ℕ → ℤ` of the successive `random.randint(0,25)` draws (four per
loop iteration); `fuel` bounds the unbounded `while True` loop. -/
def generate_random_key (rand : ℕ → ℤ) : ℕ → Option M2
  | 0 => none
  | fuel + 1 =>
      let K : M2 := ⟨rand 0, rand 1, rand 2, rand 3⟩
      match inverse_matrix_mod26 K with
      | Except.ok _ => some K
      | Except.error _ => generate_random_key (fun n => rand (n + 4)) fuel

/-- Code points of uppercase letters. -/
def isUpper (ch : ℕ) : Prop := 65 ≤ ch ∧ ch ≤ 90

instance (ch : ℕ) : Decidable (isUpper ch) := by unfold isUpper; infer_instance

lemma upperChar_of_upper {ch : ℕ} (h : isUpper ch) : upperChar ch = ch := by
  unfold upperChar
  rw [if_neg]
  obtain ⟨h1, h2⟩ := h
  omega

lemma isAsciiLetter_of_upper {ch : ℕ} (h : isUpper ch) : isAsciiLetter ch = true := by
  obtain ⟨h1, h2⟩ := h
  simp [isAsciiLetter]
  omega

lemma isUpper_upperChar {ch : ℕ} (h : isAsciiLetter ch = true) : isUpper (upperChar ch) := by
  simp [isAsciiLetter] at h
  unfold upperChar isUpper
  split <;> omega

lemma clean_of_upper {l : List ℕ} (h : ∀ c ∈ l, isUpper c) : clean_text_keep_alpha l = l := by
  induction l with
  | nil => rfl
  | cons c rest ih =>
      have hc := h c (by simp)
      have hrest : ∀ x ∈ rest, isUpper x := fun x hx => h x (by simp [hx])
      simp [clean_text_keep_alpha, List.filter, isAsciiLetter_of_upper hc,
        upperChar_of_upper hc] at ih ⊢
      exact ih hrest

lemma mem_clean_upper (s : List ℕ) : ∀ c ∈ clean_text_keep_alpha s, isUpper c := by
  intro c hc
  simp [clean_text_keep_alpha] at hc
  obtain ⟨x, ⟨_, hx⟩, rfl⟩ := hc
  exact isUpper_upperChar hx

lemma letter_to_num_of_upper {ch : ℕ} (h : isUpper ch) : letter_to_num ch = some (ch - 65) := by
  obtain ⟨h1, h2⟩ := h
  interval_cases ch <;> rfl

lemma num_to_letter_eq {m : ℕ} (h : m < 26) : num_to_letter m = 65 + m := by
  interval_cases m <;> rfl

lemma isUpper_num_to_letter {m : ℕ} (h : m < 26) : isUpper (num_to_letter m) := by
  rw [num_to_letter_eq h]
  exact ⟨by omega, by omega⟩

lemma find_inverse_spec (x : ℤ) :
    ((∃ e, find_inverse x = Except.ok e) ↔ Int.gcd (x % 26) 26 = 1) ∧
    (∀ er, find_inverse x = Except.error er → er = CipherError.invalidKey (x % 26)) := by
  have hb : 0 ≤ x % 26 := Int.emod_nonneg _ (by norm_num)
  have hlt : x % 26 < 26 := Int.emod_lt_of_pos _ (by norm_num)
  have hmod : ((modulus : ℕ) : ℤ) = 26 := by norm_num [modulus]
  simp only [find_inverse, hmod]
  generalize x % 26 = r at *
  interval_cases r <;> simp [mod_inverse, List.lookup] <;> decide

lemma find_inverse_mul {x e : ℤ} (h : find_inverse x = Except.ok e) :
    (x % 26 * e) % 26 = 1 := by
  have hb : 0 ≤ x % 26 := Int.emod_nonneg _ (by norm_num)
  have hlt : x % 26 < 26 := Int.emod_lt_of_pos _ (by norm_num)
  have hmod : ((modulus : ℕ) : ℤ) = 26 := by norm_num [modulus]
  simp only [find_inverse, hmod] at h
  generalize hr : x % 26 = r at *
  interval_cases r <;> simp [mod_inverse, List.lookup] at h <;> omega

lemma intCast_emod26 (a : ℤ) : ((a % 26 : ℤ) : ZMod 26) = (a : ZMod 26) := by
  have h := ZMod.intCast_mod a 26
  push_cast at h
  exact h

lemma inverse_matrix_eq {K Kinv : M2} (h : inverse_matrix_mod26 K = Except.ok Kinv) :
    ∃ e, find_inverse ((K.a * K.d - K.b * K.c) % 26) = Except.ok e ∧
      Kinv = ⟨(e * K.d) % 26, (-(e * K.b)) % 26, (-(e * K.c)) % 26, (e * K.a) % 26⟩ := by
  have hmod : ((modulus : ℕ) : ℤ) = 26 := by norm_num [modulus]
  simp only [inverse_matrix_mod26, hmod, bind, Except.bind] at h
  cases hfi : find_inverse ((K.a * K.d - K.b * K.c) % 26) with
  | ok e =>
      rw [hfi] at h
      simp at h
      exact ⟨e, rfl, h.symm⟩
  | error er =>
      rw [hfi] at h
      simp at h

lemma det_inv_one {K Kinv : M2} (h : inverse_matrix_mod26 K = Except.ok Kinv) :
    ∃ e : ℤ, Kinv = ⟨(e * K.d) % 26, (-(e * K.b)) % 26, (-(e * K.c)) % 26, (e * K.a) % 26⟩ ∧
      (((K.a * K.d - K.b * K.c) : ℤ) : ZMod 26) * (e : ZMod 26) = 1 := by
  obtain ⟨e, hfi, hK⟩ := inverse_matrix_eq h
  refine ⟨e, hK, ?_⟩
  have hm := find_inverse_mul hfi
  have hcast := congrArg (fun z : ℤ => (z : ZMod 26)) hm
  simp only [Int.emod_emod_of_dvd _ (dvd_refl (26 : ℤ))] at hm
  have hcast2 := congrArg (fun z : ℤ => (z : ZMod 26)) hm
  simpa [intCast_emod26] using hcast2

lemma emod26_eq_of_zmod {x y : ℤ} (h : (x : ZMod 26) = (y : ZMod 26)) (h0 : 0 ≤ y)
    (h1 : y < 26) : x % 26 = y := by
  have := (ZMod.intCast_eq_intCast_iff' x y 26).mp h
  push_cast at this
  rw [this]
  exact Int.emod_eq_of_lt h0 h1

lemma decrypt_entry {K Kinv : M2} (hK : inverse_matrix_mod26 K = Except.ok Kinv)
    {p0 p1 : ℤ} (h00 : 0 ≤ p0) (h01 : p0 < 26) (h10 : 0 ≤ p1) (h11 : p1 < 26) :
    (Kinv.a * ((K.a * p0 + K.b * p1) % 26) + Kinv.b * ((K.c * p0 + K.d * p1) % 26)) % 26 = p0 ∧
    (Kinv.c * ((K.a * p0 + K.b * p1) % 26) + Kinv.d * ((K.c * p0 + K.d * p1) % 26)) % 26 = p1 := by
  obtain ⟨e, hKi, he⟩ := det_inv_one hK
  subst hKi
  push_cast at he
  constructor
  · apply emod26_eq_of_zmod _ h00 h01
    push_cast [intCast_emod26]
    linear_combination (p0 : ZMod 26) * he
  · apply emod26_eq_of_zmod _ h10 h11
    push_cast [intCast_emod26]
    linear_combination (p1 : ZMod 26) * he

lemma encrypt_block_pair (K : M2) {x y : ℕ} (hx : isUpper x) (hy : isUpper y) :
    encrypt_block [x, y] K = Except.ok
      ([num_to_letter (((K.a * ((x : ℤ) - 65) + K.b * ((y : ℤ) - 65)) % 26).toNat),
        num_to_letter (((K.c * ((x : ℤ) - 65) + K.d * ((y : ℤ) - 65)) % 26).toNat)],
       [(K.a * ((x : ℤ) - 65) + K.b * ((y : ℤ) - 65)) % 26,
        (K.c * ((x : ℤ) - 65) + K.d * ((y : ℤ) - 65)) % 26],
       [x - 65, y - 65]) := by
  have hmod : ((modulus : ℕ) : ℤ) = 26 := by norm_num [modulus]
  have hxc : ((x - 65 : ℕ) : ℤ) = (x : ℤ) - 65 := by
    have h1 := hx.1
    push_cast [h1]
    ring
  have hyc : ((y - 65 : ℕ) : ℤ) = (y : ℤ) - 65 := by
    have h1 := hy.1
    push_cast [h1]
    ring
  simp only [encrypt_block, text_to_numbers, letter_to_num_of_upper hx,
    letter_to_num_of_upper hy, getIdx, bind, Except.bind, pure, Except.pure,
    numbers_to_text, hmod, List.get?, List.map, hxc, hyc,
    Int.emod_emod_of_dvd _ (dvd_refl (26 : ℤ))]

lemma decrypt_block_pair (Ki : M2) {x y : ℕ} (hx : isUpper x) (hy : isUpper y) :
    decrypt_block [x, y] Ki = Except.ok
      ([num_to_letter (((Ki.a * ((x : ℤ) - 65) + Ki.b * ((y : ℤ) - 65)) % 26).toNat),
        num_to_letter (((Ki.c * ((x : ℤ) - 65) + Ki.d * ((y : ℤ) - 65)) % 26).toNat)],
       [(Ki.a * ((x : ℤ) - 65) + Ki.b * ((y : ℤ) - 65)) % 26,
        (Ki.c * ((x : ℤ) - 65) + Ki.d * ((y : ℤ) - 65)) % 26],
       [x - 65, y - 65]) := by
  have hmod : ((modulus : ℕ) : ℤ) = 26 := by norm_num [modulus]
  have hxc : ((x - 65 : ℕ) : ℤ) = (x : ℤ) - 65 := by
    have h1 := hx.1
    push_cast [h1]
    ring
  have hyc : ((y - 65 : ℕ) : ℤ) = (y : ℤ) - 65 := by
    have h1 := hy.1
    push_cast [h1]
    ring
  simp only [decrypt_block, text_to_numbers, letter_to_num_of_upper hx,
    letter_to_num_of_upper hy, getIdx, bind, Except.bind, pure, Except.pure,
    numbers_to_text, hmod, List.get?, List.map, hxc, hyc,
    Int.emod_emod_of_dvd _ (dvd_refl (26 : ℤ))]

lemma block_roundtrip {K Kinv : M2} (hK : inverse_matrix_mod26 K = Except.ok Kinv)
    {x y : ℕ} (hx : isUpper x) (hy : isUpper y) :
    ∃ u v cn, encrypt_block [x, y] K = Except.ok ([u, v], cn, [x - 65, y - 65]) ∧
      isUpper u ∧ isUpper v ∧
      ∃ pn, decrypt_block [u, v] Kinv = Except.ok ([x, y], pn, [u - 65, v - 65]) := by
  have hx1 := hx.1
  have hx2 := hx.2
  have hy1 := hy.1
  have hy2 := hy.2
  set px : ℤ := (x : ℤ) - 65 with hpx
  set py : ℤ := (y : ℤ) - 65 with hpy
  have hpx0 : 0 ≤ px := by simp only [hpx]; omega
  have hpx1 : px < 26 := by simp only [hpx]; omega
  have hpy0 : 0 ≤ py := by simp only [hpy]; omega
  have hpy1 : py < 26 := by simp only [hpy]; omega
  set c1 : ℤ := (K.a * px + K.b * py) % 26 with hc1
  set c2 : ℤ := (K.c * px + K.d * py) % 26 with hc2
  have hc10 : 0 ≤ c1 := Int.emod_nonneg _ (by norm_num)
  have hc11 : c1 < 26 := Int.emod_lt_of_pos _ (by norm_num)
  have hc20 : 0 ≤ c2 := Int.emod_nonneg _ (by norm_num)
  have hc21 : c2 < 26 := Int.emod_lt_of_pos _ (by norm_num)
  have hu : isUpper (num_to_letter c1.toNat) := isUpper_num_to_letter (by omega)
  have hv : isUpper (num_to_letter c2.toNat) := isUpper_num_to_letter (by omega)
  refine ⟨num_to_letter c1.toNat, num_to_letter c2.toNat, [c1, c2],
    encrypt_block_pair K hx hy, hu, hv, [px, py], ?_⟩
  have huc : ((num_to_letter c1.toNat : ℕ) : ℤ) - 65 = c1 := by
    rw [num_to_letter_eq (m := c1.toNat) (by omega)]
    push_cast [Int.toNat_of_nonneg hc10]
    ring
  have hvc : ((num_to_letter c2.toNat : ℕ) : ℤ) - 65 = c2 := by
    rw [num_to_letter_eq (m := c2.toNat) (by omega)]
    push_cast [Int.toNat_of_nonneg hc20]
    ring
  rw [decrypt_block_pair Kinv hu hv, huc, hvc]
  obtain ⟨hd1, hd2⟩ := decrypt_entry hK hpx0 hpx1 hpy0 hpy1
  rw [hc1, hc2] at *
  rw [hd1, hd2]
  have hxback : num_to_letter px.toNat = x := by
    rw [num_to_letter_eq (m := px.toNat) (by omega)]
    omega
  have hyback : num_to_letter py.toNat = y := by
    rw [num_to_letter_eq (m := py.toNat) (by omega)]
    omega
  rw [hxback, hyback]

lemma chunks_roundtrip {K Kinv : M2} (hK : inverse_matrix_mod26 K = Except.ok Kinv) :
    ∀ l : List ℕ, (∀ c ∈ l, isUpper c) → l.length % 2 = 0 →
      ∃ ct eb, encrypt_chunks K l = Except.ok (ct, eb) ∧ (∀ c ∈ ct, isUpper c) ∧
        ct.length = l.length ∧ ∃ db, decrypt_chunks Kinv ct = Except.ok (l, db)
  | [] => by
      intro _ _
      exact ⟨[], [], rfl, by simp, rfl, [], rfl⟩
  | [c0] => by
      intro _ h
      simp at h
  | c0 :: c1 :: rest => by
      intro hmem heven
      have hc0 : isUpper c0 := hmem c0 (by simp)
      have hc1 : isUpper c1 := hmem c1 (by simp)
      have hrest : ∀ c ∈ rest, isUpper c := fun c hc => hmem c (by simp [hc])
      have hreven : rest.length % 2 = 0 := by
        simp [List.length] at heven ⊢
        omega
      obtain ⟨ct, eb, hct, hctUp, hctLen, db, hdb⟩ :=
        chunks_roundtrip hK rest hrest hreven
      obtain ⟨u, v, cn, henc, hu, hv, pn, hdec⟩ := block_roundtrip hK hc0 hc1
      refine ⟨u :: v :: ct, ([c0, c1], [c0 - 65, c1 - 65], cn, [u, v]) :: eb, ?_, ?_, ?_, ?_⟩
      · simp only [encrypt_chunks, henc, hct, bind, Except.bind]
        simp
      · intro c hc
        simp at hc
        rcases hc with rfl | rfl | hc
        · exact hu
        · exact hv
        · exact hctUp c hc
      · simp [hctLen]
      · refine ⟨([u, v], [u - 65, v - 65], pn, [c0, c1]) :: db, ?_⟩
        simp only [decrypt_chunks, hdec, hdb, bind, Except.bind]
        simp

/-- C1: for every 2x2 key `K` that `inverse_matrix_mod26` inverts to `Kinv`
and every non-empty string `s` of uppercase letters with even length,
encrypting `s` with `K` and decrypting the resulting ciphertext with `Kinv`
yields a plaintext equal to `s`. -/
theorem hill_roundtrip (K Kinv : M2) (hK : inverse_matrix_mod26 K = Except.ok Kinv)
    (s : List ℕ) (_hne : s ≠ []) (heven : s.length % 2 = 0)
    (hup : ∀ c ∈ s, isUpper c) :
    ∃ ct eb db, encrypt_full s K = Except.ok (s, s, ct, eb) ∧
      decrypt_full ct Kinv = Except.ok (ct, s, db) := by
  obtain ⟨ct, eb, hct, hctUp, hctLen, db, hdb⟩ := chunks_roundtrip hK s hup heven
  have hclean : clean_text_keep_alpha s = s := clean_of_upper hup
  have hpad : pad_text s = s := by simp [pad_text, heven]
  refine ⟨ct, eb, db, ?_, ?_⟩
  · simp only [encrypt_full, hclean, hpad, hct, bind, Except.bind]
  · have hcleanct : clean_text_keep_alpha ct = ct := clean_of_upper hctUp
    have hctEven : ct.length % 2 = 0 := by rw [hctLen]; exact heven
    simp only [decrypt_full, hcleanct, hctEven, bind, Except.bind]
    simp only [ne_eq, not_true_eq_false, if_false, reduceIte]
    rw [hdb]

/-- C2: `inverse_matrix_mod26` succeeds on a 2x2 integer matrix `K` exactly
when `gcd(det K mod 26, 26) = 1`, and every failure is an `invalidKey` error
carrying the determinant reduced into `[0, 26)`. -/
theorem validateAndInvert_spec (K : M2) :
    ((∃ Ki, inverse_matrix_mod26 K = Except.ok Ki) ↔
      Int.gcd ((K.a * K.d - K.b * K.c) % 26) 26 = 1) ∧
    (∀ er, inverse_matrix_mod26 K = Except.error er →
      er = CipherError.invalidKey ((K.a * K.d - K.b * K.c) % 26) ∧
      0 ≤ (K.a * K.d - K.b * K.c) % 26 ∧ (K.a * K.d - K.b * K.c) % 26 < 26) := by
  have hmod : ((modulus : ℕ) : ℤ) = 26 := by norm_num [modulus]
  have hdd : ((K.a * K.d - K.b * K.c) % 26) % 26 = (K.a * K.d - K.b * K.c) % 26 :=
    Int.emod_emod_of_dvd _ dvd_rfl
  obtain ⟨hiff, herr⟩ := find_inverse_spec ((K.a * K.d - K.b * K.c) % 26)
  rw [hdd] at hiff herr
  constructor
  · rw [← hiff]
    constructor
    · rintro ⟨Ki, hKi⟩
      obtain ⟨e, hfi, _⟩ := inverse_matrix_eq hKi
      exact ⟨e, hfi⟩
    · rintro ⟨e, hfi⟩
      refine ⟨⟨(e * K.d) % 26, (e * (-K.b)) % 26, (e * (-K.c)) % 26, (e * K.a) % 26⟩, ?_⟩
      simp only [inverse_matrix_mod26, hmod, bind, Except.bind, hfi]
  · intro er her
    simp only [inverse_matrix_mod26, hmod, bind, Except.bind] at her
    cases hfi : find_inverse ((K.a * K.d - K.b * K.c) % 26) with
    | ok e =>
        rw [hfi] at her
        simp at her
    | error er2 =>
        rw [hfi] at her
        simp at her
        subst her
        exact ⟨herr er2 hfi, Int.emod_nonneg _ (by norm_num),
          Int.emod_lt_of_pos _ (by norm_num)⟩

/-- C3 counterexample: on the key `[[3,3],[2,5]]` the code returns the
inverse `[[15,17],[20,9]]`, which differs from the claimed `[[15,19],[20,9]]`
in the top-right entry. -/
theorem c3_counter : inverse_matrix_mod26 ⟨3, 3, 2, 5⟩ = Except.ok ⟨15, 17, 20, 9⟩ ∧
    (⟨15, 17, 20, 9⟩ : M2) ≠ ⟨15, 19, 20, 9⟩ := ⟨rfl, by decide⟩

/-- C3 (amended): for the key `[[3,3],[2,5]]` the determinant is 9, its
inverse mod 26 is 3, and `inverse_matrix_mod26` returns `[[15,17],[20,9]]`,
the adjugate `[[5,-3],[-2,3]]` scaled by 3 with entries reduced mod 26. -/
theorem c3_amended : (3 * 5 - 3 * 2 : ℤ) % 26 = 9 ∧ find_inverse 9 = Except.ok 3 ∧
    inverse_matrix_mod26 ⟨3, 3, 2, 5⟩ = Except.ok ⟨15, 17, 20, 9⟩ ∧
    (⟨15, 17, 20, 9⟩ : M2) =
      ⟨(3 * 5) % 26, (3 * (-3)) % 26, (3 * (-2)) % 26, (3 * 3) % 26⟩ :=
  ⟨rfl, rfl, rfl, rfl⟩

/-- C4: on a pair of letters with indices `p0 = x - 65` and `p1 = y - 65`,
`encrypt_block` returns the letters of `c1 = (K00*p0 + K01*p1) mod 26` and
`c2 = (K10*p0 + K11*p1) mod 26` in that order, and `decrypt_block` performs
the identical arithmetic with the inverse key in place of `K`. -/
theorem block_arith_spec (K Kinv : M2) (x y : ℕ) (hx : isUpper x) (hy : isUpper y) :
    encrypt_block [x, y] K = Except.ok
      ([num_to_letter (((K.a * ((x : ℤ) - 65) + K.b * ((y : ℤ) - 65)) % 26).toNat),
        num_to_letter (((K.c * ((x : ℤ) - 65) + K.d * ((y : ℤ) - 65)) % 26).toNat)],
       [(K.a * ((x : ℤ) - 65) + K.b * ((y : ℤ) - 65)) % 26,
        (K.c * ((x : ℤ) - 65) + K.d * ((y : ℤ) - 65)) % 26],
       [x - 65, y - 65]) ∧
    decrypt_block [x, y] Kinv = Except.ok
      ([num_to_letter (((Kinv.a * ((x : ℤ) - 65) + Kinv.b * ((y : ℤ) - 65)) % 26).toNat),
        num_to_letter (((Kinv.c * ((x : ℤ) - 65) + Kinv.d * ((y : ℤ) - 65)) % 26).toNat)],
       [(Kinv.a * ((x : ℤ) - 65) + Kinv.b * ((y : ℤ) - 65)) % 26,
        (Kinv.c * ((x : ℤ) - 65) + Kinv.d * ((y : ℤ) - 65)) % 26],
       [x - 65, y - 65]) :=
  ⟨encrypt_block_pair K hx hy, decrypt_block_pair Kinv hx hy⟩

/-- C5: whenever the normalization of the input is empty, both the encrypt
operation and the decrypt operation (the form handlers wrapping
`encrypt_full`/`decrypt_full`) fail with the empty-input error instead of
returning a result. -/
theorem empty_input_spec (s : List ℕ) (K Kinv : M2)
    (h : clean_text_keep_alpha s = []) :
    encrypt_op s K = Except.error CipherError.emptyInput ∧
    decrypt_op s Kinv = Except.error CipherError.emptyInput := by
  constructor
  · simp [encrypt_op, encrypt_full, h, pad_text, encrypt_chunks, bind, Except.bind]
  · simp [decrypt_op, decrypt_full, h, decrypt_chunks, bind, Except.bind]

/-- C6: on a ciphertext whose normalized form has odd length, `decrypt_full`
drops the single trailing unpaired character: its result equals decrypting
the even-length prefix (the first `len - 1` normalized characters). -/
theorem odd_length_truncation (ct : List ℕ) (Ki : M2)
    (h : (clean_text_keep_alpha ct).length % 2 = 1) :
    decrypt_full ct Ki = decrypt_full ((clean_text_keep_alpha ct).dropLast) Ki := by
  have hup := mem_clean_upper ct
  have hupd : ∀ c ∈ (clean_text_keep_alpha ct).dropLast, isUpper c := fun c hc =>
    hup c (List.dropLast_subset _ hc)
  have hclean2 : clean_text_keep_alpha ((clean_text_keep_alpha ct).dropLast) =
      (clean_text_keep_alpha ct).dropLast := clean_of_upper hupd
  have hlen : ((clean_text_keep_alpha ct).dropLast).length % 2 = 0 := by
    rw [List.length_dropLast]
    omega
  simp only [decrypt_full, hclean2, h, hlen]
  norm_num

/-- C9: normalization (strip every character outside `[A-Za-z]`, uppercase
the rest) is idempotent. -/
theorem normalize_idempotent (s : List ℕ) :
    clean_text_keep_alpha (clean_text_keep_alpha s) = clean_text_keep_alpha s :=
  clean_of_upper (mem_clean_upper s)

/-- C8: `pad_text` returns an even-length text unchanged and appends a
single letter X (code point 88) to an odd-length text, making the length
`t.length + 1`. -/
theorem pad_spec (t : List ℕ) :
    (t.length % 2 = 0 → pad_text t = t) ∧
    (t.length % 2 = 1 → pad_text t = t ++ [88] ∧ (pad_text t).length = t.length + 1) := by
  constructor
  · intro h
    simp [pad_text, h]
  · intro h
    have hne : ¬ t.length % 2 = 0 := by omega
    simp [pad_text, hne]

lemma emod_lin (a b p q : ℤ) : (a % 26 * p + b % 26 * q) % 26 = (a * p + b * q) % 26 := by
  have ha : a % 26 ≡ a [ZMOD 26] := Int.emod_emod_of_dvd a dvd_rfl
  have hb : b % 26 ≡ b [ZMOD 26] := Int.emod_emod_of_dvd b dvd_rfl
  exact (ha.mul_right p).add (hb.mul_right q)

/-- C10: on a pair of letters, `encrypt_block` and `decrypt_block` are
defined for every 2x2 integer key matrix, and reducing each key entry mod 26
into `[0, 26)` leaves their outputs unchanged. -/
theorem block_mod26_invariance (x y : ℕ) (hx : isUpper x) (hy : isUpper y) (K Ki : M2) :
    (∃ r, encrypt_block [x, y] K = Except.ok r) ∧
    encrypt_block [x, y] K =
      encrypt_block [x, y] ⟨K.a % 26, K.b % 26, K.c % 26, K.d % 26⟩ ∧
    (∃ r, decrypt_block [x, y] Ki = Except.ok r) ∧
    decrypt_block [x, y] Ki =
      decrypt_block [x, y] ⟨Ki.a % 26, Ki.b % 26, Ki.c % 26, Ki.d % 26⟩ := by
  refine ⟨⟨_, encrypt_block_pair K hx hy⟩, ?_, ⟨_, decrypt_block_pair Ki hx hy⟩, ?_⟩
  · rw [encrypt_block_pair K hx hy,
      encrypt_block_pair ⟨K.a % 26, K.b % 26, K.c % 26, K.d % 26⟩ hx hy]
    simp only [emod_lin]
  · rw [decrypt_block_pair Ki hx hy,
      decrypt_block_pair ⟨Ki.a % 26, Ki.b % 26, Ki.c % 26, Ki.d % 26⟩ hx hy]
    simp only [emod_lin]

/-- C7: every matrix returned by `generate_random_key` (driven by a stream
of `randint(0,25)` draws, each in `[0, 25]`) has all four entries in
`[0, 25]` and is accepted by `inverse_matrix_mod26`. -/
theorem random_key_spec :
    ∀ (fuel : ℕ) (rand : ℕ → ℤ), (∀ n, 0 ≤ rand n ∧ rand n ≤ 25) →
      ∀ K : M2, generate_random_key rand fuel = some K →
        (0 ≤ K.a ∧ K.a ≤ 25) ∧ (0 ≤ K.b ∧ K.b ≤ 25) ∧
        (0 ≤ K.c ∧ K.c ≤ 25) ∧ (0 ≤ K.d ∧ K.d ≤ 25) ∧
        ∃ Ki, inverse_matrix_mod26 K = Except.ok Ki
  | 0 => by
      intro rand hr K h
      simp [generate_random_key] at h
  | fuel + 1 => by
      intro rand hr K h
      simp only [generate_random_key] at h
      cases hfi : inverse_matrix_mod26 ⟨rand 0, rand 1, rand 2, rand 3⟩ with
      | ok Ki =>
          rw [hfi] at h
          simp at h
          subst h
          exact ⟨hr 0, hr 1, hr 2, hr 3, Ki, hfi⟩
      | error er =>
          rw [hfi] at h
          exact random_key_spec fuel (fun n => rand (n + 4)) (fun n => hr (n + 4)) K h

theorem hill_roundtrip_witness :
    ∃ ct eb db, encrypt_full [72, 73] ⟨3, 3, 2, 5⟩ = Except.ok ([72, 73], [72, 73], ct, eb) ∧
      decrypt_full ct ⟨15, 17, 20, 9⟩ = Except.ok (ct, [72, 73], db) :=
  hill_roundtrip ⟨3, 3, 2, 5⟩ ⟨15, 17, 20, 9⟩ rfl [72, 73] (by decide) (by decide) (by decide)

theorem validateAndInvert_spec_witness :
    CipherError.invalidKey 0 = CipherError.invalidKey ((2 * 10 - 4 * 5) % 26) ∧
    (0 : ℤ) ≤ (2 * 10 - 4 * 5) % 26 ∧ (2 * 10 - 4 * 5 : ℤ) % 26 < 26 :=
  (validateAndInvert_spec ⟨2, 4, 5, 10⟩).2 (CipherError.invalidKey 0) rfl

theorem block_arith_spec_witness :
    encrypt_block [72, 69] ⟨3, 3, 2, 5⟩ = Except.ok ([72, 73], [7, 8], [7, 4]) ∧
    decrypt_block [72, 69] ⟨15, 17, 20, 9⟩ = Except.ok ([82, 85], [17, 20], [7, 4]) := by
  exact block_arith_spec ⟨3, 3, 2, 5⟩ ⟨15, 17, 20, 9⟩ 72 69 (by decide) (by decide)

theorem empty_input_spec_witness :
    encrypt_op [32, 32, 32, 49, 50, 51, 33, 33, 33] ⟨3, 3, 2, 5⟩ =
      Except.error CipherError.emptyInput ∧
    decrypt_op [32, 32, 32, 49, 50, 51, 33, 33, 33] ⟨15, 17, 20, 9⟩ =
      Except.error CipherError.emptyInput :=
  empty_input_spec _ ⟨3, 3, 2, 5⟩ ⟨15, 17, 20, 9⟩ (by decide)

theorem odd_length_truncation_witness :
    decrypt_full [65, 66, 67] ⟨15, 17, 20, 9⟩ =
      decrypt_full ((clean_text_keep_alpha [65, 66, 67]).dropLast) ⟨15, 17, 20, 9⟩ :=
  odd_length_truncation [65, 66, 67] ⟨15, 17, 20, 9⟩ (by decide)

theorem random_key_spec_witness :
    ((0 : ℤ) ≤ 3 ∧ (3 : ℤ) ≤ 25) ∧ ((0 : ℤ) ≤ 3 ∧ (3 : ℤ) ≤ 25) ∧
    ((0 : ℤ) ≤ 2 ∧ (2 : ℤ) ≤ 25) ∧ ((0 : ℤ) ≤ 5 ∧ (5 : ℤ) ≤ 25) ∧
    ∃ Ki, inverse_matrix_mod26 ⟨3, 3, 2, 5⟩ = Except.ok Ki := by
  exact random_key_spec 1
    (fun n => if n = 0 then 3 else if n = 1 then 3 else if n = 2 then 2 else
      if n = 3 then 5 else 0)
    (fun n => by dsimp only; split_ifs <;> norm_num)
    ⟨3, 3, 2, 5⟩ rfl

theorem pad_spec_witness :
    pad_text [65, 66] = [65, 66] ∧
    (pad_text [65] = [65] ++ [88] ∧ (pad_text [65]).length = [65].length + 1) :=
  ⟨(pad_spec [65, 66]).1 (by decide), (pad_spec [65]).2 (by decide)⟩

theorem block_mod26_invariance_witness :
    (∃ r, encrypt_block [72, 69] ⟨3, 3, -2, 31⟩ = Except.ok r) ∧
    encrypt_block [72, 69] ⟨3, 3, -2, 31⟩ =
      encrypt_block [72, 69] ⟨(3 : ℤ) % 26, 3 % 26, (-2) % 26, 31 % 26⟩ ∧
    (∃ r, decrypt_block [72, 69] ⟨-11, 17, 46, 9⟩ = Except.ok r) ∧
    decrypt_block [72, 69] ⟨-11, 17, 46, 9⟩ =
      decrypt_block [72, 69] ⟨(-11 : ℤ) % 26, 17 % 26, 46 % 26, 9 % 26⟩ :=
  block_mod26_invariance 72 69 (by decide) (by decide) ⟨3, 3, -2, 31⟩ ⟨-11, 17, 46, 9⟩

end HillCipher
